import Mathlib

/-!
Verification of the kaiseki literate-programming tangler.

The definitions below are a shallow embedding of the Rust sources:
`src/parsing.rs` (anchor lexer and parser), `src/list.rs` (the
doubly-linked splice list, modelled as pointer cells in an explicit
heap), and `src/lib.rs` (the tangle engine and output assembler).
Regex character classes are modelled over ASCII.  Rust panics
(`expect`) are modelled as `none` / `.panic` results; loops are given
explicit fuel chosen large enough at the call sites that appear in the
sources.
-/

namespace Kaiseki

namespace Parsing

/-- Character class for the regex `\w` (ASCII model). -/
def wordCharB (c : Char) : Bool := c.isAlphanum || c = '_'

/-- Character class for the regex `\s` (ASCII model). -/
def spaceCharB (c : Char) : Bool :=
  c = ' ' || c = '\t' || c = '\n' || c = '\r' || c = Char.ofNat 11 || c = Char.ofNat 12

/-- Character class for the argument token's body: `[\w\d\s\-]`. -/
def argCharB (c : Char) : Bool := wordCharB c || spaceCharB c || c = '-'

/-- Tokens produced by `lex_tokens` in `parsing.rs`. -/
inductive Op
| insert
| before
| after
| label
deriving DecidableEq, Repr

inductive Token
| null
| anchorStart
| anchorEnd
| anchorOp (op : Op)
| anchorOpArg (arg : String)
deriving DecidableEq, Repr

/-- Parsed anchors (`parsing::Anchor`). -/
inductive Anchor
| insert
| before (arg : String)
| after (arg : String)
| label (arg : String)
deriving DecidableEq, Repr

/-- Anchored literal pattern: matches when `lit` is a prefix, returning its length. -/
def litMatch (lit : List Char) (cs : List Char) : Option Nat :=
  if lit.isPrefixOf cs then some lit.length else none

/-- The pattern `^\([\w\d\s\-]+\)`: an opening paren, a nonempty run of
argument characters, and a closing paren.  Returns the match length. -/
def argMatch (cs : List Char) : Option Nat :=
  match cs with
  | '(' :: rest =>
    let run := rest.takeWhile argCharB
    if run.length = 0 then none
    else
      match rest.drop run.length with
      | ')' :: _ => some (run.length + 2)
      | _ => none
  | _ => none

/-- The table of lexer patterns of `lex_tokens`, in source order. -/
def lexerPatterns : List ((List Char → Option Nat) × (List Char → Token)) :=
  [ (litMatch ['#', '#', '['], fun _ => Token.anchorStart),
    (litMatch [']'], fun _ => Token.anchorEnd),
    (litMatch "before".data, fun _ => Token.anchorOp Op.before),
    (litMatch "after".data, fun _ => Token.anchorOp Op.after),
    (litMatch "insert".data, fun _ => Token.anchorOp Op.insert),
    (litMatch "label".data, fun _ => Token.anchorOp Op.label),
    (argMatch, fun cs => Token.anchorOpArg (String.mk cs)) ]

/-- One step of the lexer loop: try every pattern at the current position and
keep the strictly longest match (ties resolved by table order), starting from
`(0, Token.null)` exactly as in the source. -/
def bestMatch (cs : List Char) : Nat × Token :=
  lexerPatterns.foldl
    (fun acc p =>
      match p.1 cs with
      | some l => if l > acc.1 then (l, p.2 (cs.take l)) else acc
      | none => acc)
    (0, Token.null)

/-- The lexer loop of `lex_tokens`; `none` is a lex failure. -/
def lex_tokens_go : Nat → List Char → Option (List Token)
  | 0, _ => none
  | _ + 1, [] => some []
  | fuel + 1, c :: rest =>
    let m := bestMatch (c :: rest)
    if m.1 = 0 then none
    else (lex_tokens_go fuel ((c :: rest).drop m.1)).map (fun ts => m.2 :: ts)

def lex_tokens (s : String) : Option (List Token) :=
  lex_tokens_go (s.data.length + 1) s.data

/-- `parse_arg`: pop a token, which must be an argument token. -/
def parse_arg : List Token → Option (String × List Token)
  | Token.anchorOpArg s :: rest => some (s, rest)
  | _ => none

/-- `parse_end`: pop a token, which must be the closing bracket. -/
def parse_end : List Token → Option (List Token)
  | Token.anchorEnd :: rest => some rest
  | _ => none

/-- `parse_op`: pop an operator token and its argument and closing bracket. -/
def parse_op : List Token → Option Anchor
  | Token.anchorOp Op.insert :: r => (parse_end r).map (fun _ => Anchor.insert)
  | Token.anchorOp Op.before :: r =>
    (parse_arg r).bind (fun p => (parse_end p.2).map (fun _ => Anchor.before p.1))
  | Token.anchorOp Op.after :: r =>
    (parse_arg r).bind (fun p => (parse_end p.2).map (fun _ => Anchor.after p.1))
  | Token.anchorOp Op.label :: r =>
    (parse_arg r).bind (fun p => (parse_end p.2).map (fun _ => Anchor.label p.1))
  | _ => none

/-- `parse_anchor`: pop the opening token, then the operator form. -/
def parse_anchor : List Token → Option Anchor
  | Token.anchorStart :: r => parse_op r
  | _ => none

/-- `parse`: lex, then parse; both failure modes collapse to `none`. -/
def parse (s : String) : Option Anchor :=
  (lex_tokens s).bind parse_anchor

/-- The candidate regex `##\[[^]]+\]` tried at one position. -/
def anchor_candidate : List Char → Option (List Char)
  | '#' :: '#' :: '[' :: rest =>
    let run := rest.takeWhile (fun c => c != ']')
    if run.length = 0 then none
    else
      match rest.drop run.length with
      | ']' :: _ => some ('#' :: '#' :: '[' :: (run ++ [']']))
      | _ => none
  | _ => none

/-- Leftmost match of the candidate regex. -/
def might_be_anchor_go : List Char → Option (List Char)
  | [] => none
  | c :: rest =>
    match anchor_candidate (c :: rest) with
    | some m => some m
    | none => might_be_anchor_go rest

/-- `might_be_anchor`: the cheap pre-filter over a whole line. -/
def might_be_anchor (line : String) : Option String :=
  (might_be_anchor_go line.data).map String.mk

end Parsing

/-- `indentation_level`: index of the first non-whitespace character, 0 when
the line is all whitespace. -/
def indentation_level (line : String) : Nat :=
  let ws := line.data.takeWhile Parsing.spaceCharB
  if ws.length = line.data.length then 0 else ws.length

namespace KList

/-- A node of the doubly-linked list of `list.rs`: pointers toward the front
and back, and the payload.  Addresses are natural numbers into an explicit
heap. -/
structure Node (T : Type) where
  to_f : Option Nat
  to_b : Option Nat
  data : T
deriving DecidableEq, Repr

/-- The heap of allocated nodes. -/
def Heap (T : Type) := Nat → Option (Node T)

/-- Store a node at an address. -/
def hupdate {T : Type} (h : Heap T) (a : Nat) (n : Node T) : Heap T :=
  fun x => if x = a then some n else h x

/-- The `List` header struct of `list.rs`: front and back pointers and the
length. -/
structure DLList where
  front : Option Nat
  back : Option Nat
  len : Nat
deriving DecidableEq, Repr

/-- `List::append_back`: splice all of `other` after `self` by rewiring two
pointers.  Dereferencing an unallocated address (impossible on well-formed
lists) is `none`. -/
def append_back {T : Type} (h : Heap T) (self other : DLList) :
    Option (Heap T × DLList × DLList) :=
  match self.back, other.front with
  | _, none => some (h, self, other)
  | none, _ => some (h, other, self)
  | some ourBack, some theirFront =>
    match h ourBack, h theirFront with
    | some nb, some nf =>
      some (hupdate (hupdate h ourBack { nb with to_b := some theirFront })
              theirFront { nf with to_f := some ourBack },
        ⟨self.front, other.back, self.len + other.len⟩,
        ⟨none, none, 0⟩)
    | _, _ => none

/-- `List::append_front`: splice all of `other` before `self`. -/
def append_front {T : Type} (h : Heap T) (self other : DLList) :
    Option (Heap T × DLList × DLList) :=
  match self.front, other.back with
  | _, none => some (h, self, other)
  | none, _ => some (h, other, self)
  | some ourFront, some theirBack =>
    match h ourFront, h theirBack with
    | some nf, some nb =>
      some (hupdate (hupdate h ourFront { nf with to_f := some theirBack })
              theirBack { nb with to_b := some ourFront },
        ⟨other.front, self.back, self.len + other.len⟩,
        ⟨none, none, 0⟩)
    | _, _ => none

/-- Address of the first cell, if any. -/
def headAddr {T : Type} (cells : List (Nat × T)) : Option Nat :=
  cells.head?.map Prod.fst

/-- `nextOf nxt cells`: address of the first cell, or `nxt` when there is
none (the forward pointer a cell should carry toward `cells`). -/
def nextOf {T : Type} (nxt : Option Nat) (cells : List (Nat × T)) : Option Nat :=
  match cells with
  | [] => nxt
  | (b, _) :: _ => some b

/-- `prevOf p cells`: address of the last cell, or `p` when there is none
(the backward pointer owed to whatever follows `cells`). -/
def prevOf {T : Type} (p : Option Nat) : List (Nat × T) → Option Nat
  | [] => p
  | (a, _) :: rest => prevOf (some a) rest

/-- `ChainedSeg h prev cells nxt`: the cells form a doubly-linked segment in
`h`, the first pointing back at `prev` and the last pointing forward at
`nxt`. -/
def ChainedSeg {T : Type} (h : Heap T) : Option Nat → List (Nat × T) → Option Nat → Prop
  | _, [], _ => True
  | prev, (a, x) :: rest, nxt =>
    h a = some ⟨prev, nextOf nxt rest, x⟩ ∧ ChainedSeg h (some a) rest nxt

/-- Well-formedness of a list header against its cell sequence. -/
def WFL {T : Type} (h : Heap T) (l : DLList) (cells : List (Nat × T)) : Prop :=
  ChainedSeg h none cells none ∧
  l.front = headAddr cells ∧
  l.back = prevOf none cells ∧
  l.len = cells.length ∧
  (cells.map Prod.fst).Nodup

end KList

/-- A single-quote character, used in provenance headers. -/
def squote : String := String.mk [Char.ofNat 39]

/-- One line read from an input stream: either decoded text, or a line that
failed to decode as UTF-8. -/
inductive LineInput
| ok (line : String)
| bad
deriving DecidableEq, Repr

/-- An input stream (`input::File`): a display name and its lines. -/
structure Stream' where
  name : String
  lines : List LineInput
deriving DecidableEq, Repr

/-- The error kinds of `processing_errors::ErrorKind`. -/
inductive Err
| notUTF8 (file : String) (lineno : Nat)
| malformedAnchor (file : String) (lineno : Nat) (anchor : String)
| duplicateAnchor (file : String) (lineno : Nat) (tag : String)
| missingTag (file : String) (lineno : Nat) (tag : String)
deriving DecidableEq, Repr

/-- `Block`: accumulated ordinary lines, tagged with origin name and a
1-based line number. -/
structure Block where
  lines : List String
  file : String
  lineno : Nat
deriving DecidableEq, Repr

/-- A child of the forest (`Either<Block, AnchorRef>`). -/
inductive Knot
| block (b : Block)
| ref (name : String)
deriving DecidableEq, Repr

/-- `Tangled = List<Either<Block, AnchorRef>>`, with the splice list modelled
by its element sequence. -/
abbrev Tangled := List Knot

/-- `Anchor`: an anchor node, with its absolute indentation and children. -/
structure Anchor where
  indentation : Nat
  tangled : Tangled
deriving DecidableEq, Repr

/-- The `BTreeMap<String, Anchor>`, modelled as an association list with
unique keys. -/
abbrev AnchorMap := List (String × Anchor)

def lookupAnchor (k : String) : AnchorMap → Option Anchor
  | [] => none
  | (k', a) :: rest => if k' = k then some a else lookupAnchor k rest

/-- `BTreeMap::insert`: replace the binding for `k` if present, else add it. -/
def insertAnchor (k : String) (a : Anchor) : AnchorMap → AnchorMap
  | [] => [(k, a)]
  | (k', a') :: rest =>
    if k' = k then (k, a) :: rest else (k', a') :: insertAnchor k a rest

/-- `BTreeMap::remove`: take the binding for `k` out of the map. -/
def removeAnchor (k : String) : AnchorMap → Option (Anchor × AnchorMap)
  | [] => none
  | (k', a') :: rest =>
    if k' = k then some (a', rest)
    else (removeAnchor k rest).map (fun p => (p.1, (k', a') :: p.2))

/-- `OutputTarget`: the routing state of the tangle engine. -/
inductive OutputTarget
| insert
| before (name : String)
| after (name : String)
deriving DecidableEq, Repr

/-- `OutputOptions`. -/
structure OutputOptions where
  comment : Option String
deriving DecidableEq, Repr

/-- Result of `process_block_lines`: remaining lines, the extended block, the
accumulated errors, and the parsed anchor that terminated the block (with its
line number and the line's indentation level), if any. -/
structure PBRes where
  rest : List (Nat × LineInput)
  block : Block
  errs : List Err
  next : Option (Nat × Nat × Parsing.Anchor)
deriving Repr

/-- `process_block_lines`: scan lines into `block` until a line parses as an
anchor (malformed candidates are recorded and kept as ordinary lines;
undecodable lines are recorded and dropped) or the lines run out. -/
def process_block_lines : List (Nat × LineInput) → Block → List Err → PBRes
  | [], block, errs => ⟨[], block, errs, none⟩
  | (lineno, LineInput.bad) :: rest, block, errs =>
    process_block_lines rest block (errs ++ [Err.notUTF8 block.file lineno])
  | (lineno, LineInput.ok line) :: rest, block, errs =>
    match Parsing.might_be_anchor line with
    | none =>
      process_block_lines rest { block with lines := block.lines ++ [line] } errs
    | some found =>
      match Parsing.parse found with
      | some anchor => ⟨rest, block, errs, some (lineno, indentation_level line, anchor)⟩
      | none =>
        process_block_lines rest { block with lines := block.lines ++ [line] }
          (errs ++ [Err.malformedAnchor block.file lineno found])

/-- `emplace_section!`: route a finished section according to the current
state.  `List::append_back` and `List::append_front` are the sequence
concatenations; a missing routing target is the source's `expect` panic,
modelled as `none`. -/
def emplace (st : OutputTarget) (sec : Tangled) (root : Tangled) (m : AnchorMap) :
    Option (Tangled × AnchorMap) :=
  match st with
  | OutputTarget.insert => some (root ++ sec, m)
  | OutputTarget.before name =>
    match lookupAnchor name m with
    | none => none
    | some a => some (root, insertAnchor name { a with tangled := sec ++ a.tangled } m)
  | OutputTarget.after name =>
    match lookupAnchor name m with
    | none => none
    | some a => some (root, insertAnchor name { a with tangled := a.tangled ++ sec } m)

/-- The `match anchor` arm of `tangle_output`: flush and reroute on `Insert`,
`Before`, `After` (checking `has_anchor!` and recording a missing-tag error),
and create an anchor node plus a reference on `Label`.  Returns the new state,
pending section, root, anchor map and errors. -/
def handleAnchor (fname : String) (lineno ind : Nat) (a : Parsing.Anchor)
    (st : OutputTarget) (sec root : Tangled) (m : AnchorMap) (errs : List Err) :
    Option (OutputTarget × Tangled × Tangled × AnchorMap × List Err) :=
  match a with
  | Parsing.Anchor.insert =>
    match emplace st sec root m with
    | none => none
    | some (root', m') => some (OutputTarget.insert, [], root', m', errs)
  | Parsing.Anchor.before name =>
    match emplace st sec root m with
    | none => none
    | some (root', m') =>
      if (lookupAnchor name m').isSome then
        some (OutputTarget.before name, [], root', m', errs)
      else
        some (OutputTarget.insert, [], root', m',
          errs ++ [Err.missingTag fname lineno name])
  | Parsing.Anchor.after name =>
    match emplace st sec root m with
    | none => none
    | some (root', m') =>
      if (lookupAnchor name m').isSome then
        some (OutputTarget.after name, [], root', m', errs)
      else
        some (OutputTarget.insert, [], root', m',
          errs ++ [Err.missingTag fname lineno name])
  | Parsing.Anchor.label name =>
    some (st, sec ++ [Knot.ref name], root, insertAnchor name ⟨ind, []⟩ m, errs)

/-- The per-stream `loop` of `tangle_output`.  Fuel counts loop iterations;
each iteration past the first consumed at least the anchor line, so
`lines.length + 1` is always enough. -/
def streamLoop (fuel : Nat) (fname : String) (lines : List (Nat × LineInput))
    (st : OutputTarget) (sec : Tangled) (block : Block)
    (root : Tangled) (m : AnchorMap) (errs : List Err) :
    Option (Tangled × AnchorMap × List Err) :=
  match fuel with
  | 0 => none
  | fuel + 1 =>
    let r := process_block_lines lines block errs
    let sec' := if r.block.lines.isEmpty then sec else sec ++ [Knot.block r.block]
    match r.next with
    | none =>
      (emplace st sec' root m).map (fun p => (p.1, p.2, r.errs))
    | some (lineno, ind, a) =>
      match handleAnchor fname lineno ind a st sec' root m r.errs with
      | none => none
      | some (st', sec'', root', m', errs') =>
        streamLoop fuel fname r.rest st' sec'' ⟨[], fname, lineno⟩ root' m' errs'

/-- Attach line numbers starting at `k`. -/
def numberLinesFrom (k : Nat) : List LineInput → List (Nat × LineInput)
  | [] => []
  | l :: rest => (k, l) :: numberLinesFrom (k + 1) rest

/-- Attach 1-based line numbers (`enumerate` + 1). -/
def numberLines (lines : List LineInput) : List (Nat × LineInput) :=
  numberLinesFrom 1 lines

/-- The outer loop of `tangle_output` over the input streams, building the
forest (root sequence, anchor map) and the error list. -/
def tanglePass : List Stream' → Tangled → AnchorMap → List Err →
    Option (Tangled × AnchorMap × List Err)
  | [], root, m, errs => some (root, m, errs)
  | s :: rest, root, m, errs =>
    let numbered := numberLines s.lines
    match streamLoop (numbered.length + 1) s.name numbered
        OutputTarget.insert [] ⟨[], s.name, 1⟩ root m errs with
    | none => none
    | some (root', m', errs') => tanglePass rest root' m' errs'

/-- `maybe_block_header`: the optional provenance-comment line for a block. -/
def maybe_block_header (b : Block) (options : OutputOptions) : Option String :=
  options.comment.map
    (fun c => c ++ " " ++ squote ++ b.file ++ squote ++ ", line " ++ toString b.lineno)

/-- A run of `n` spaces. -/
def indentStr (n : Nat) : String := String.mk (List.replicate n ' ')

/-- Result of the output assembler: the remaining anchor map and the emitted
lines, a panic (`expect` on a missing anchor), or fuel exhaustion (a modelling
artifact, never reached with the fuel chosen in `collect_tangled_output`). -/
inductive CollectResult
| out (m : AnchorMap) (lines : List String)
| panic
| outOfFuel
deriving DecidableEq, Repr

/-- `collect_anchor_lines`: depth-first resolution of the forest.  Blocks emit
an optional indented header then their indented lines; a reference removes its
anchor node from the map (panicking if absent) and recurses with the node's
indentation added. -/
def collect_anchor_lines (fuel : Nat) (t : Tangled) (m : AnchorMap)
    (indentation : Nat) (options : OutputOptions) : CollectResult :=
  match fuel with
  | 0 => CollectResult.outOfFuel
  | fuel + 1 =>
    match t with
    | [] => CollectResult.out m []
    | Knot.block b :: rest =>
      let hdr := match maybe_block_header b options with
        | some c => [indentStr indentation ++ c]
        | none => []
      let body := b.lines.map (fun l => indentStr indentation ++ l)
      match collect_anchor_lines fuel rest m indentation options with
      | CollectResult.out m' ls => CollectResult.out m' (hdr ++ body ++ ls)
      | r => r
    | Knot.ref name :: rest =>
      match removeAnchor name m with
      | none => CollectResult.panic
      | some (a, m') =>
        match collect_anchor_lines fuel a.tangled m' (indentation + a.indentation) options with
        | CollectResult.out m₂ ls₁ =>
          match collect_anchor_lines fuel rest m₂ indentation options with
          | CollectResult.out m₃ ls₂ => CollectResult.out m₃ (ls₁ ++ ls₂)
          | r => r
        | r => r

/-- Total work bound for the assembler's fuel: one unit per knot plus one per
anchor entry and its children. -/
def mapWork (m : AnchorMap) : Nat :=
  (m.map (fun p => p.2.tangled.length + 1)).sum

/-- `collect_tangled_output`: assemble the whole forest starting at the root
with indentation 0. -/
def collect_tangled_output (t : Tangled) (m : AnchorMap) (options : OutputOptions) :
    CollectResult :=
  collect_anchor_lines (t.length + mapWork m + 1) t m 0 options

/-- Result of `tangle_output`: output lines plus accumulated errors, or an
aborted run. -/
inductive TangleResult
| ok (lines : List String) (errors : List Err)
| panic
| outOfFuel
deriving DecidableEq, Repr

/-- `tangle_output`: run the tangle pass over all streams, then assemble. -/
def tangle_output (inputs : List Stream') (options : OutputOptions) : TangleResult :=
  match tanglePass inputs [] [] [] with
  | none => TangleResult.panic
  | some (root, m, errs) =>
    match collect_tangled_output root m options with
    | CollectResult.out _ ls => TangleResult.ok ls errs
    | CollectResult.panic => TangleResult.panic
    | CollectResult.outOfFuel => TangleResult.outOfFuel

/-- Result type of `emitted_blocks`. -/
inductive ERes
| out (m : AnchorMap) (blocks : List (Nat × Block))
| panic
| outOfFuel
deriving DecidableEq, Repr

/-- The traversal skeleton of `collect_anchor_lines`: the blocks the
assembler visits, in order, each paired with the accumulated indentation at
which it is emitted.  Identical recursion structure, independent of output
options. -/
def emitted_blocks (fuel : Nat) (t : Tangled) (m : AnchorMap) (indentation : Nat) : ERes :=
  match fuel with
  | 0 => ERes.outOfFuel
  | fuel + 1 =>
    match t with
    | [] => ERes.out m []
    | Knot.block b :: rest =>
      match emitted_blocks fuel rest m indentation with
      | ERes.out m' bs => ERes.out m' ((indentation, b) :: bs)
      | r => r
    | Knot.ref name :: rest =>
      match removeAnchor name m with
      | none => ERes.panic
      | some (a, m') =>
        match emitted_blocks fuel a.tangled m' (indentation + a.indentation) with
        | ERes.out m₂ bs₁ =>
          match emitted_blocks fuel rest m₂ indentation with
          | ERes.out m₃ bs₂ => ERes.out m₃ (bs₁ ++ bs₂)
          | r => r
        | r => r

/-- The lines `collect_anchor_lines` produces for one visited block: the
optional provenance header, then the block's lines, all indented. -/
def render_block (options : OutputOptions) (p : Nat × Block) : List String :=
  (match maybe_block_header p.2 options with
   | some c => [indentStr p.1 ++ c]
   | none => []) ++ p.2.lines.map (fun l => indentStr p.1 ++ l)

/-- Flush a sequence of sections one after another under a fixed routing
state (the effect of several `Before` or `After` directives each followed by
one block group). -/
def flushMany (st : OutputTarget) (secs : List Tangled) (root : Tangled) (m : AnchorMap) :
    Option (Tangled × AnchorMap) :=
  match secs with
  | [] => some (root, m)
  | s :: rest =>
    match emplace st s root m with
    | none => none
    | some (root', m') => flushMany st rest root' m'

/-- The decoded text of a line, if it decoded. -/
def decodedOf : LineInput → Option String
  | LineInput.ok l => some l
  | LineInput.bad => none

/-- The successfully decoded lines of a stream, in order. -/
def decodedLines (s : Stream') : List String :=
  s.lines.filterMap decodedOf

/-- A knot is an anchor reference or a block with at least one line. -/
def blockNonempty (k : Knot) : Prop :=
  match k with
  | Knot.block b => b.lines ≠ []
  | Knot.ref _ => True

/-- Every block in the sequence is nonempty. -/
def KnotsOK (t : Tangled) : Prop := ∀ k ∈ t, blockNonempty k

/-- Every block stored under any anchor is nonempty. -/
def MapOK (m : AnchorMap) : Prop := ∀ p ∈ m, KnotsOK p.2.tangled

/-- The four exact token forms of the anchor grammar. -/
def anchor_form : Parsing.Anchor → List Parsing.Token
  | Parsing.Anchor.insert =>
    [Parsing.Token.anchorStart, Parsing.Token.anchorOp Parsing.Op.insert,
     Parsing.Token.anchorEnd]
  | Parsing.Anchor.before l =>
    [Parsing.Token.anchorStart, Parsing.Token.anchorOp Parsing.Op.before,
     Parsing.Token.anchorOpArg l, Parsing.Token.anchorEnd]
  | Parsing.Anchor.after l =>
    [Parsing.Token.anchorStart, Parsing.Token.anchorOp Parsing.Op.after,
     Parsing.Token.anchorOpArg l, Parsing.Token.anchorEnd]
  | Parsing.Anchor.label l =>
    [Parsing.Token.anchorStart, Parsing.Token.anchorOp Parsing.Op.label,
     Parsing.Token.anchorOpArg l, Parsing.Token.anchorEnd]

/-! Theorems. -/

/-- Looking up a key just inserted yields the inserted node. -/
theorem lookup_insertAnchor_self (k : String) (a : Anchor) (m : AnchorMap) :
    lookupAnchor k (insertAnchor k a m) = some a := by
  induction m with
  | nil => simp [insertAnchor, lookupAnchor]
  | cons p rest ih =>
    by_cases h : p.1 = k
    · simp [insertAnchor, h, lookupAnchor]
    · simp [insertAnchor, h, lookupAnchor, ih]

/-- Flushing a sequence of sections at a `Before` target prepends each
section in turn, so the sections end up in reverse encounter order in front
of the node's original children. -/
theorem flushMany_before (secs : List Tangled) (x : String) (root : Tangled)
    (m : AnchorMap) (node : Anchor) (h : lookupAnchor x m = some node) :
    ∃ m', flushMany (OutputTarget.before x) secs root m = some (root, m') ∧
      lookupAnchor x m'
        = some ⟨node.indentation, secs.reverse.flatten ++ node.tangled⟩ := by
  induction secs generalizing m node with
  | nil => exact ⟨m, rfl, by simpa using h⟩
  | cons s rest ih =>
    obtain ⟨m', hflush, hlook⟩ :=
      ih (insertAnchor x ⟨node.indentation, s ++ node.tangled⟩ m)
        ⟨node.indentation, s ++ node.tangled⟩ (lookup_insertAnchor_self ..)
    refine ⟨m', ?_, ?_⟩
    · simpa [flushMany, emplace, h] using hflush
    · simpa [List.reverse_cons, List.flatten_append, List.append_assoc] using hlook

/-- Flushing a sequence of sections at an `After` target appends each section
in turn, so the sections stay in encounter order behind the node's original
children. -/
theorem flushMany_after (secs : List Tangled) (x : String) (root : Tangled)
    (m : AnchorMap) (node : Anchor) (h : lookupAnchor x m = some node) :
    ∃ m', flushMany (OutputTarget.after x) secs root m = some (root, m') ∧
      lookupAnchor x m'
        = some ⟨node.indentation, node.tangled ++ secs.flatten⟩ := by
  induction secs generalizing m node with
  | nil => exact ⟨m, rfl, by simpa using h⟩
  | cons s rest ih =>
    obtain ⟨m', hflush, hlook⟩ :=
      ih (insertAnchor x ⟨node.indentation, node.tangled ++ s⟩ m)
        ⟨node.indentation, node.tangled ++ s⟩ (lookup_insertAnchor_self ..)
    refine ⟨m', ?_, ?_⟩
    · simpa [flushMany, emplace, h] using hflush
    · simpa [List.flatten_cons, List.append_assoc] using hlook

/-- Claim C4: flushing the groups routed by `Before` directives pushes each
group to the front of the anchor's children (so groups appear in reverse
order of directive encounter, the last one closest to the declared content),
while `After` directives append each group to the back (groups appear in
encounter order); concretely, three `before` blocks come out reversed and
three `after` blocks come out in order. -/
theorem c4_before_reversed_after_in_order :
    (∀ (secs : List Tangled) (x : String) (root : Tangled) (m : AnchorMap) (node : Anchor),
      lookupAnchor x m = some node →
      ∃ m', flushMany (OutputTarget.before x) secs root m = some (root, m') ∧
        lookupAnchor x m'
          = some ⟨node.indentation, secs.reverse.flatten ++ node.tangled⟩) ∧
    (∀ (secs : List Tangled) (x : String) (root : Tangled) (m : AnchorMap) (node : Anchor),
      lookupAnchor x m = some node →
      ∃ m', flushMany (OutputTarget.after x) secs root m = some (root, m') ∧
        lookupAnchor x m'
          = some ⟨node.indentation, node.tangled ++ secs.flatten⟩) ∧
    tangle_output [⟨"f",
        [LineInput.ok "##[label(x)]", LineInput.ok "##[before(x)]", LineInput.ok "one",
         LineInput.ok "##[before(x)]", LineInput.ok "two",
         LineInput.ok "##[before(x)]", LineInput.ok "three"]⟩] ⟨none⟩
      = TangleResult.ok ["three", "two", "one"] [] ∧
    tangle_output [⟨"f",
        [LineInput.ok "##[label(x)]", LineInput.ok "##[after(x)]", LineInput.ok "one",
         LineInput.ok "##[after(x)]", LineInput.ok "two",
         LineInput.ok "##[after(x)]", LineInput.ok "three"]⟩] ⟨none⟩
      = TangleResult.ok ["one", "two", "three"] [] ∧
    tangle_output [⟨"A", [LineInput.ok "##[label(x)]"]⟩,
        ⟨"B", [LineInput.ok "##[before(x)]", LineInput.ok "one",
         LineInput.ok "##[before(x)]", LineInput.ok "two"]⟩] ⟨none⟩
      = TangleResult.ok ["two", "one"] [] :=
  ⟨flushMany_before, flushMany_after, rfl, rfl, rfl⟩

/-- Claim C4, witness: three one-block groups flushed at a `Before` target of
a one-entry map. -/
theorem c4_witness :
    lookupAnchor "(x)" [("(x)", ⟨0, [Knot.block ⟨["z"], "f", 1⟩]⟩)]
      = some ⟨0, [Knot.block ⟨["z"], "f", 1⟩]⟩ ∧
    (∃ m', flushMany (OutputTarget.before "(x)")
        [[Knot.block ⟨["a"], "f", 2⟩], [Knot.block ⟨["b"], "f", 3⟩],
         [Knot.block ⟨["c"], "f", 4⟩]]
        [] [("(x)", ⟨0, [Knot.block ⟨["z"], "f", 1⟩]⟩)] = some ([], m') ∧
      lookupAnchor "(x)" m'
        = some ⟨0, [[Knot.block ⟨["c"], "f", 4⟩], [Knot.block ⟨["b"], "f", 3⟩],
            [Knot.block ⟨["a"], "f", 2⟩]].flatten ++ [Knot.block ⟨["z"], "f", 1⟩]⟩) :=
  ⟨rfl, by
    simpa using c4_before_reversed_after_in_order.1
      [[Knot.block ⟨["a"], "f", 2⟩], [Knot.block ⟨["b"], "f", 3⟩],
       [Knot.block ⟨["c"], "f", 4⟩]]
      "(x)" [] [("(x)", ⟨0, [Knot.block ⟨["z"], "f", 1⟩]⟩)]
      ⟨0, [Knot.block ⟨["z"], "f", 1⟩]⟩ rfl⟩

/-- Claim C1: the claim says a repeated `Label(label)` records exactly one
duplicate-anchor-tag error, creates no second node, discards the reference,
and the run still completes.  The code does none of this: on the input below
the pass records no error at all, pushes a second reference, replaces the map
entry (the node's indentation becomes the second declaration's), and output
assembly then panics on the second reference. -/
theorem c1_duplicate_label_no_error_and_panic :
    tanglePass [⟨"f", [LineInput.ok "##[label(a)]", LineInput.ok "  ##[label(a)]"]⟩] [] [] []
      = some ([Knot.ref "(a)", Knot.ref "(a)"], [("(a)", ⟨2, []⟩)], []) ∧
    tangle_output [⟨"f", [LineInput.ok "##[label(a)]", LineInput.ok "  ##[label(a)]"]⟩] ⟨none⟩
      = TangleResult.panic :=
  ⟨rfl, rfl⟩

/-- Claim C3, counterexample: with a comment leader configured, a block at
the root level, never routed through any anchor, is nevertheless preceded by
a provenance header line. -/
theorem c3_root_block_gets_header :
    tangle_output [⟨"f", [LineInput.ok "a"]⟩] ⟨some "//"⟩
      = TangleResult.ok ["// " ++ squote ++ "f" ++ squote ++ ", line 1", "a"] [] :=
  rfl

/-- Claim C5, counterexample: processing a `Label` directive while the state
is `Before(x)` leaves the state at `Before(x)`, not `Insert`. -/
theorem c5_label_keeps_before_state :
    (handleAnchor "f" 5 0 (Parsing.Anchor.label "(y)") (OutputTarget.before "(x)") [] []
        [("(x)", ⟨0, []⟩)] []).map (fun r => r.1)
      = some (OutputTarget.before "(x)") ∧
    OutputTarget.before "(x)" ≠ OutputTarget.insert :=
  ⟨rfl, by decide⟩

/-- Claim C5, amended: a successfully parsed `Label(label)` creates a new
anchor node whose indentation is the directive line's first non-whitespace
column and inserts it into the map (replacing any previous entry), pushes a
reference to it onto the current pending section (so it reaches the routing
target in effect at the next flush), and leaves the state, root, and errors
unchanged — a `Before`/`After` state persists past a `Label` directive.  On
the concrete run below, the line after `##[label(y)]` is still routed to the
`Before(x)` target (output `head, post, tail`), not to the root. -/
theorem c5_label_transition :
    (∀ (fname : String) (lineno ind : Nat) (name : String) (st : OutputTarget)
        (sec root : Tangled) (m : AnchorMap) (errs : List Err),
      handleAnchor fname lineno ind (Parsing.Anchor.label name) st sec root m errs
        = some (st, sec ++ [Knot.ref name], root, insertAnchor name ⟨ind, []⟩ m, errs)) ∧
    tangle_output [⟨"f",
        [LineInput.ok "##[label(x)]", LineInput.ok "tail", LineInput.ok "##[before(x)]",
         LineInput.ok "head", LineInput.ok "##[label(y)]", LineInput.ok "post"]⟩] ⟨none⟩
      = TangleResult.ok ["head", "post", "tail"] [] :=
  ⟨fun _ _ _ _ _ _ _ _ _ => rfl, rfl⟩

/-- Claim C6, counterexample: the block holding line `a` (the second line of
its stream) is materialized tagged with line number 1 — the line of the
`##[insert]` directive that opened it — not with the line number of the
block's own first line, and a configured provenance header prints that
directive line number. -/
theorem c6_block_tagged_with_directive_line :
    tanglePass [⟨"f", [LineInput.ok "##[insert]", LineInput.ok "a"]⟩] [] [] []
      = some ([Knot.block ⟨["a"], "f", 1⟩], [], []) ∧
    tangle_output [⟨"f", [LineInput.ok "##[insert]", LineInput.ok "a"]⟩] ⟨some "//"⟩
      = TangleResult.ok ["// " ++ squote ++ "f" ++ squote ++ ", line 1", "a"] [] ∧
    (Block.mk ["a"] "f" 1).lineno ≠ 2 :=
  ⟨rfl, rfl, by decide⟩

/-- Claim C9, counterexample: the input `##[insert]]` is accepted by `parse`,
yet its token stream `Start Insert End End` is not exactly one of the four
accepted forms — trailing tokens after the accepted form are ignored, not
rejected. -/
theorem c9_trailing_tokens_accepted :
    Parsing.parse "##[insert]]" = some Parsing.Anchor.insert ∧
    Parsing.lex_tokens "##[insert]]"
      = some [Parsing.Token.anchorStart, Parsing.Token.anchorOp Parsing.Op.insert,
              Parsing.Token.anchorEnd, Parsing.Token.anchorEnd] ∧
    ¬ ∃ a : Parsing.Anchor,
        [Parsing.Token.anchorStart, Parsing.Token.anchorOp Parsing.Op.insert,
         Parsing.Token.anchorEnd, Parsing.Token.anchorEnd] = anchor_form a := by
  refine ⟨rfl, rfl, ?_⟩
  rintro ⟨a, h⟩
  cases a <;> simp [anchor_form] at h

/-- Claim C7: a `Before` or `After` directive whose label is not in the map
when the directive is processed appends exactly one missing-tag error, forces
the state to `Insert` (with a fresh pending section), and the run continues;
concretely, the block after `##[before(zzz)]` lands at the root and the run
completes with exactly one error. -/
theorem c7_missing_tag_downgrades_to_insert :
    (∀ (fname : String) (lineno ind : Nat) (name : String) (st : OutputTarget)
        (sec root : Tangled) (m : AnchorMap) (errs : List Err)
        (root' : Tangled) (m' : AnchorMap),
      emplace st sec root m = some (root', m') →
      lookupAnchor name m' = none →
      handleAnchor fname lineno ind (Parsing.Anchor.before name) st sec root m errs
          = some (OutputTarget.insert, [], root', m',
              errs ++ [Err.missingTag fname lineno name]) ∧
        handleAnchor fname lineno ind (Parsing.Anchor.after name) st sec root m errs
          = some (OutputTarget.insert, [], root', m',
              errs ++ [Err.missingTag fname lineno name])) ∧
    tangle_output [⟨"f", [LineInput.ok "##[before(zzz)]", LineInput.ok "a"]⟩] ⟨none⟩
      = TangleResult.ok ["a"] [Err.missingTag "f" 1 "(zzz)"] := by
  refine ⟨?_, rfl⟩
  intro fname lineno ind name st sec root m errs root' m' hemp hlook
  constructor <;> simp [handleAnchor, hemp, hlook]

/-- Claim C7, witness: the general statement applied to the empty forest and
an `Insert` state. -/
theorem c7_missing_tag_witness :
    (emplace OutputTarget.insert [] [] [] = some ([], []) ∧
      lookupAnchor "(z)" [] = none) ∧
    handleAnchor "f" 1 0 (Parsing.Anchor.before "(z)") OutputTarget.insert [] [] [] []
      = some (OutputTarget.insert, [], [], [], [Err.missingTag "f" 1 "(z)"]) :=
  ⟨⟨rfl, rfl⟩,
    (c7_missing_tag_downgrades_to_insert.1 "f" 1 0 "(z)" OutputTarget.insert
      [] [] [] [] [] [] rfl rfl).1⟩

/-- Claim C8: resolving an anchor reference recurses into the node's children
with the node's recorded indentation added to the current indentation, so
indentation is cumulative; concretely, an anchor declared at indentation 4
referenced inside an anchor declared at indentation 2 emits its content with
6 columns of spaces. -/
theorem c8_indentation_cumulative :
    (∀ (fuel : Nat) (name : String) (rest : Tangled) (m : AnchorMap) (ind : Nat)
        (options : OutputOptions) (a : Anchor) (m' : AnchorMap),
      removeAnchor name m = some (a, m') →
      collect_anchor_lines (fuel + 1) (Knot.ref name :: rest) m ind options
        = (match collect_anchor_lines fuel a.tangled m' (ind + a.indentation) options with
           | CollectResult.out m₂ ls₁ =>
             (match collect_anchor_lines fuel rest m₂ ind options with
              | CollectResult.out m₃ ls₂ => CollectResult.out m₃ (ls₁ ++ ls₂)
              | r => r)
           | r => r)) ∧
    tangle_output [⟨"f",
        [LineInput.ok "  ##[label(outer)]", LineInput.ok "##[after(outer)]",
         LineInput.ok "    ##[label(inner)]", LineInput.ok "##[after(inner)]",
         LineInput.ok "content"]⟩] ⟨none⟩
      = TangleResult.ok [indentStr 6 ++ "content"] [] := by
  refine ⟨?_, rfl⟩
  intro fuel name rest m ind options a m' hrem
  simp [collect_anchor_lines, hrem]

/-- Claim C8, witness: the recursion equation applied to a one-entry map
holding an anchor of indentation 4 referenced at current indentation 2. -/
theorem c8_indentation_witness :
    removeAnchor "(x)" [("(x)", ⟨4, [Knot.block ⟨["c"], "f", 1⟩]⟩)]
      = some (⟨4, [Knot.block ⟨["c"], "f", 1⟩]⟩, []) ∧
    collect_anchor_lines 3 [Knot.ref "(x)"] [("(x)", ⟨4, [Knot.block ⟨["c"], "f", 1⟩]⟩)] 2 ⟨none⟩
      = (match collect_anchor_lines 2 [Knot.block ⟨["c"], "f", 1⟩] [] (2 + 4) ⟨none⟩ with
         | CollectResult.out m₂ ls₁ =>
           (match collect_anchor_lines 2 ([] : Tangled) m₂ 2 ⟨none⟩ with
            | CollectResult.out m₃ ls₂ => CollectResult.out m₃ (ls₁ ++ ls₂)
            | r => r)
         | r => r) :=
  ⟨rfl,
    c8_indentation_cumulative.1 2 "(x)" [] [("(x)", ⟨4, [Knot.block ⟨["c"], "f", 1⟩]⟩)] 2 ⟨none⟩
      ⟨4, [Knot.block ⟨["c"], "f", 1⟩]⟩ [] rfl⟩

/-- Prepending the empty indentation leaves a line unchanged. -/
theorem indentStr_zero_append (s : String) : indentStr 0 ++ s = s := by
  cases s
  rfl

/-- Membership in a numbered line list projects to the underlying lines. -/
theorem mem_numberLinesFrom {p : Nat × LineInput} {lines : List LineInput} :
    ∀ {k : Nat}, p ∈ numberLinesFrom k lines → p.2 ∈ lines := by
  induction lines with
  | nil => intro k h; simp [numberLinesFrom] at h
  | cons l rest ih =>
    intro k h
    rcases (by simpa [numberLinesFrom] using h :
        p = (k, l) ∨ p ∈ numberLinesFrom (k + 1) rest) with h' | h'
    · subst h'; simp
    · exact List.mem_cons_of_mem _ (ih h')

theorem decodedOf_ok (l : String) : decodedOf (LineInput.ok l) = some l := rfl

theorem decodedOf_bad : decodedOf LineInput.bad = none := rfl

/-- Numbering does not change which lines decode. -/
theorem filterMap_numberLinesFrom (lines : List LineInput) :
    ∀ k, (numberLinesFrom k lines).filterMap (fun p => decodedOf p.2)
      = lines.filterMap decodedOf := by
  induction lines with
  | nil => intro k; simp [numberLinesFrom]
  | cons l rest ih =>
    intro k
    cases l <;>
      simp [numberLinesFrom, List.filterMap_cons, decodedOf_ok, decodedOf_bad, ih]

/-- `process_block_lines` over lines none of which matches the anchor
pre-filter: every decoded line is appended to the block, no anchor is found,
and all lines are consumed. -/
theorem pbl_no_anchor (lines : List (Nat × LineInput)) (block : Block) (errs : List Err)
    (h : ∀ p ∈ lines, ∀ l, p.2 = LineInput.ok l → Parsing.might_be_anchor l = none) :
    ∃ errs', process_block_lines lines block errs
      = ⟨[], { block with
          lines := block.lines ++ lines.filterMap (fun p => decodedOf p.2) },
          errs', none⟩ := by
  induction lines generalizing block errs with
  | nil => exact ⟨errs, by simp [process_block_lines]⟩
  | cons p rest ih =>
    obtain ⟨n, li⟩ := p
    cases li with
    | bad =>
      obtain ⟨errs', heq⟩ := ih block (errs ++ [Err.notUTF8 block.file n])
        (fun q hq => h q (List.mem_cons_of_mem _ hq))
      exact ⟨errs', by
        simpa [process_block_lines, List.filterMap_cons, decodedOf] using heq⟩
    | ok l =>
      have hno : Parsing.might_be_anchor l = none := h (n, LineInput.ok l) (by simp) l rfl
      obtain ⟨errs', heq⟩ := ih { block with lines := block.lines ++ [l] } errs
        (fun q hq => h q (List.mem_cons_of_mem _ hq))
      refine ⟨errs', ?_⟩
      simpa [process_block_lines, hno, List.filterMap_cons, decodedOf,
        List.append_assoc] using heq

/-- `streamLoop` on an anchor-free stream: the single block of all decoded
lines (if nonempty) is appended to the root, and the anchor map is left
untouched. -/
theorem streamLoop_no_anchor (fuel : Nat) (fname : String)
    (lines : List (Nat × LineInput)) (root : Tangled)
    (m : AnchorMap) (errs : List Err)
    (hfuel : 1 ≤ fuel)
    (h : ∀ p ∈ lines, ∀ l, p.2 = LineInput.ok l → Parsing.might_be_anchor l = none) :
    ∃ errs', streamLoop fuel fname lines OutputTarget.insert [] ⟨[], fname, 1⟩ root m errs
      = some (root ++
          (if (lines.filterMap (fun p => decodedOf p.2)).isEmpty
           then []
           else [Knot.block ⟨lines.filterMap (fun p => decodedOf p.2), fname, 1⟩]),
          m, errs') := by
  obtain ⟨f, rfl⟩ : ∃ f, fuel = f + 1 := ⟨fuel - 1, by omega⟩
  obtain ⟨errs', heq⟩ := pbl_no_anchor lines ⟨[], fname, 1⟩ errs h
  refine ⟨errs', ?_⟩
  simp only [streamLoop]
  rw [heq]
  simp [emplace]

/-- `tanglePass` over anchor-free streams: one block per stream holding its
decoded lines (streams decoding to nothing are skipped), appended to the root
in stream order; the anchor map is untouched. -/
theorem tanglePass_no_anchor (streams : List Stream') (root : Tangled)
    (m : AnchorMap) (errs : List Err)
    (h : ∀ s ∈ streams, ∀ l, LineInput.ok l ∈ s.lines → Parsing.might_be_anchor l = none) :
    ∃ errs', tanglePass streams root m errs
      = some (root ++
          (streams.map (fun s =>
            if (decodedLines s).isEmpty then []
            else [Knot.block ⟨decodedLines s, s.name, 1⟩])).flatten, m, errs') := by
  induction streams generalizing root errs with
  | nil => exact ⟨errs, by simp [tanglePass]⟩
  | cons s rest ih =>
    have hs : ∀ p ∈ numberLines s.lines, ∀ l, p.2 = LineInput.ok l →
        Parsing.might_be_anchor l = none := by
      intro p hp l hl
      exact h s (by simp) l (by rw [← hl]; exact mem_numberLinesFrom hp)
    obtain ⟨errs₁, heq₁⟩ := streamLoop_no_anchor ((numberLines s.lines).length + 1)
      s.name (numberLines s.lines) root m errs (by omega) hs
    obtain ⟨errs₂, heq₂⟩ := ih (root ++
      (if (decodedLines s).isEmpty then []
       else [Knot.block ⟨decodedLines s, s.name, 1⟩])) errs₁
      (fun t ht => h t (List.mem_cons_of_mem _ ht))
    refine ⟨errs₂, ?_⟩
    have hdec : (numberLines s.lines).filterMap (fun p => decodedOf p.2)
        = decodedLines s := filterMap_numberLinesFrom s.lines 1
    rw [hdec] at heq₁
    show (match streamLoop ((numberLines s.lines).length + 1) s.name (numberLines s.lines)
        OutputTarget.insert [] ⟨[], s.name, 1⟩ root m errs with
      | none => none
      | some (root', m', errs') => tanglePass rest root' m' errs')
      = _
    rw [heq₁]
    show tanglePass rest (root ++
        (if (decodedLines s).isEmpty then []
         else [Knot.block ⟨decodedLines s, s.name, 1⟩])) m errs₁ = _
    rw [heq₂]
    simp [List.append_assoc]

/-- `collect_anchor_lines` on a reference-free sequence at indentation 0 with
no comment leader: the blocks' lines, concatenated, unchanged. -/
theorem collect_blocks_only (t : Tangled) :
    ∀ (fuel : Nat) (m : AnchorMap), t.length + 1 ≤ fuel →
    (∀ name, Knot.ref name ∉ t) →
    collect_anchor_lines fuel t m 0 ⟨none⟩
      = CollectResult.out m
          ((t.map (fun k => match k with
            | Knot.block b => b.lines
            | Knot.ref _ => [])).flatten) := by
  induction t with
  | nil =>
    intro fuel m hfuel _
    obtain ⟨f, rfl⟩ : ∃ f, fuel = f + 1 := ⟨fuel - 1, by omega⟩
    simp [collect_anchor_lines]
  | cons k rest ih =>
    intro fuel m hfuel href
    obtain ⟨f, rfl⟩ : ∃ f, fuel = f + 1 := ⟨fuel - 1, by omega⟩
    cases k with
    | ref name => exact absurd (by simp) (href name)
    | block b =>
      have hrest := ih f m (by simpa using hfuel)
        (fun name hname => href name (List.mem_cons_of_mem _ hname))
      have hlines : b.lines.map (fun l => indentStr 0 ++ l) = b.lines := by
        calc b.lines.map (fun l => indentStr 0 ++ l)
            = b.lines.map id := List.map_congr_left (fun l _ => indentStr_zero_append l)
          _ = b.lines := List.map_id b.lines
      simp [collect_anchor_lines, hrest, maybe_block_header, hlines]

/-- Flattening the per-stream singleton blocks gives the concatenated decoded
lines. -/
theorem flatten_stream_blocks (streams : List Stream') :
    ((streams.map (fun s =>
        if (decodedLines s).isEmpty then []
        else [Knot.block ⟨decodedLines s, s.name, 1⟩])).flatten.map
      (fun k => match k with
        | Knot.block b => b.lines
        | Knot.ref _ => [])).flatten
    = (streams.map decodedLines).flatten := by
  induction streams with
  | nil => rfl
  | cons s rest ih =>
    rw [List.map_cons, List.flatten_cons, List.map_append, List.flatten_append, ih]
    by_cases hemp : (decodedLines s).isEmpty
    · have hnil : decodedLines s = [] := List.isEmpty_iff.mp hemp
      simp [hemp, hnil]
    · simp [hemp]

/-- Claim C2: for input streams none of whose lines matches the `##[`…`]`
anchor pre-filter, and with no comment leader configured, `tangle_output`
returns exactly the concatenation of all decoded input lines, in stream order
and within-stream order, each line unchanged, with no added prefix or header
lines. -/
theorem c2_no_anchors_output_is_input :
    ∀ (streams : List Stream'),
      (∀ s ∈ streams, ∀ l, LineInput.ok l ∈ s.lines → Parsing.might_be_anchor l = none) →
      ∃ errs, tangle_output streams ⟨none⟩
        = TangleResult.ok (streams.map decodedLines).flatten errs := by
  intro streams h
  obtain ⟨errs, heq⟩ := tanglePass_no_anchor streams [] [] [] h
  refine ⟨errs, ?_⟩
  have href : ∀ name, Knot.ref name ∉ (streams.map (fun s =>
      if (decodedLines s).isEmpty then []
      else [Knot.block ⟨decodedLines s, s.name, 1⟩])).flatten := by
    intro name hmem
    obtain ⟨l, hl, hmem'⟩ := List.mem_flatten.mp hmem
    obtain ⟨s, _, hs⟩ := List.mem_map.mp hl
    by_cases hemp : (decodedLines s).isEmpty <;> simp [hemp] at hs <;> subst hs <;>
      simp at hmem'
  have hcollect := collect_blocks_only
    ((streams.map (fun s =>
      if (decodedLines s).isEmpty then []
      else [Knot.block ⟨decodedLines s, s.name, 1⟩])).flatten)
    (((streams.map (fun s =>
      if (decodedLines s).isEmpty then []
      else [Knot.block ⟨decodedLines s, s.name, 1⟩])).flatten).length + mapWork [] + 1)
    [] (by omega) href
  rw [tangle_output, heq]
  simp only [List.nil_append]
  rw [collect_tangled_output, hcollect, flatten_stream_blocks]

/-- Claim C2, witness: two concrete anchor-free streams, one with an
undecodable line, concatenate unchanged. -/
theorem c2_witness :
    (∀ s ∈ [(⟨"f", [LineInput.ok "a", LineInput.bad, LineInput.ok "b"]⟩ : Stream'),
            ⟨"g", [LineInput.ok "c"]⟩], ∀ l,
        LineInput.ok l ∈ s.lines → Parsing.might_be_anchor l = none) ∧
    (∃ errs, tangle_output
        [⟨"f", [LineInput.ok "a", LineInput.bad, LineInput.ok "b"]⟩,
         ⟨"g", [LineInput.ok "c"]⟩] ⟨none⟩
      = TangleResult.ok
          ([(⟨"f", [LineInput.ok "a", LineInput.bad, LineInput.ok "b"]⟩ : Stream'),
            ⟨"g", [LineInput.ok "c"]⟩].map decodedLines).flatten errs) := by
  have hna : ∀ s ∈ [(⟨"f", [LineInput.ok "a", LineInput.bad, LineInput.ok "b"]⟩ : Stream'),
      ⟨"g", [LineInput.ok "c"]⟩], ∀ l,
      LineInput.ok l ∈ s.lines → Parsing.might_be_anchor l = none := by
    intro s hs l hl
    rcases (by simpa using hs : s = (⟨"f",
        [LineInput.ok "a", LineInput.bad, LineInput.ok "b"]⟩ : Stream') ∨
        s = ⟨"g", [LineInput.ok "c"]⟩) with rfl | rfl
    · rcases (by simpa using hl : l = "a" ∨ l = "b") with rfl | rfl <;> rfl
    · rcases (by simpa using hl : l = "c") with rfl
      rfl
  exact ⟨hna, c2_no_anchors_output_is_input _ hna⟩
/-- `collect_anchor_lines` renders exactly the blocks listed by
`emitted_blocks`, in traversal order, each through `render_block`. -/
theorem collect_eq_render (fuel : Nat) :
    ∀ (t : Tangled) (m : AnchorMap) (ind : Nat) (options : OutputOptions)
      (m' : AnchorMap) (bs : List (Nat × Block)),
    emitted_blocks fuel t m ind = ERes.out m' bs →
    collect_anchor_lines fuel t m ind options
      = CollectResult.out m' ((bs.map (render_block options)).flatten) := by
  induction fuel with
  | zero =>
    intro t m ind options m' bs h
    simp [emitted_blocks] at h
  | succ f ih =>
    intro t m ind options m' bs h
    cases t with
    | nil =>
      obtain ⟨rfl, rfl⟩ : m = m' ∧ ([] : List (Nat × Block)) = bs := by
        simpa [emitted_blocks] using h
      simp [collect_anchor_lines]
    | cons k rest =>
      cases k with
      | block b =>
        cases hr : emitted_blocks f rest m ind with
        | out m₁ bs₁ =>
          obtain ⟨rfl, rfl⟩ : m₁ = m' ∧ (ind, b) :: bs₁ = bs := by
            simpa [emitted_blocks, hr] using h
          simp [collect_anchor_lines, ih rest m ind options _ _ hr, render_block,
            List.append_assoc]
        | panic => simp [emitted_blocks, hr] at h
        | outOfFuel => simp [emitted_blocks, hr] at h
      | ref name =>
        cases hrem : removeAnchor name m with
        | none => simp [emitted_blocks, hrem] at h
        | some p =>
          obtain ⟨a, m₁⟩ := p
          cases hr₁ : emitted_blocks f a.tangled m₁ (ind + a.indentation) with
          | out m₂ bs₁ =>
            cases hr₂ : emitted_blocks f rest m₂ ind with
            | out m₃ bs₂ =>
              obtain ⟨rfl, rfl⟩ : m₃ = m' ∧ bs₁ ++ bs₂ = bs := by
                simpa [emitted_blocks, hrem, hr₁, hr₂] using h
              simp [collect_anchor_lines, hrem, ih _ _ _ options _ _ hr₁,
                ih _ _ _ options _ _ hr₂, List.map_append, List.flatten_append]
            | panic => simp [emitted_blocks, hrem, hr₁, hr₂] at h
            | outOfFuel => simp [emitted_blocks, hrem, hr₁, hr₂] at h
          | panic => simp [emitted_blocks, hrem, hr₁] at h
          | outOfFuel => simp [emitted_blocks, hrem, hr₁] at h

/-- Claim C3, amended: when a comment leader is configured, every emitted
block — whether resolved through an anchor or sitting at the root — is
immediately preceded by exactly one provenance line
`<leader> '<origin>', line <n>` indented to the current depth, where `n` is
the block's recorded line number; when no comment leader is configured, no
provenance line is ever emitted. -/
theorem c3_headers_exactly_when_leader :
    ∀ (fuel : Nat) (t : Tangled) (m : AnchorMap) (ind : Nat) (leader : String)
      (m' : AnchorMap) (bs : List (Nat × Block)),
    emitted_blocks fuel t m ind = ERes.out m' bs →
    collect_anchor_lines fuel t m ind ⟨some leader⟩
      = CollectResult.out m' ((bs.map (fun p =>
          (indentStr p.1 ++ (leader ++ " " ++ squote ++ p.2.file ++ squote
            ++ ", line " ++ toString p.2.lineno))
          :: p.2.lines.map (fun l => indentStr p.1 ++ l))).flatten) ∧
    collect_anchor_lines fuel t m ind ⟨none⟩
      = CollectResult.out m'
          ((bs.map (fun p => p.2.lines.map (fun l => indentStr p.1 ++ l))).flatten) := by
  intro fuel t m ind leader m' bs h
  constructor
  · rw [collect_eq_render fuel t m ind ⟨some leader⟩ m' bs h]
    congr 1
  · rw [collect_eq_render fuel t m ind ⟨none⟩ m' bs h]
    congr 1

/-- Claim C3, witness: a forest with one root block and one anchored block;
both get exactly one header when a leader is configured. -/
theorem c3_witness :
    emitted_blocks 3 [Knot.ref "(x)", Knot.block ⟨["r"], "f", 3⟩]
        [("(x)", ⟨2, [Knot.block ⟨["a"], "f", 1⟩]⟩)] 0
      = ERes.out [] [(2, ⟨["a"], "f", 1⟩), (0, ⟨["r"], "f", 3⟩)] ∧
    collect_anchor_lines 3 [Knot.ref "(x)", Knot.block ⟨["r"], "f", 3⟩]
        [("(x)", ⟨2, [Knot.block ⟨["a"], "f", 1⟩]⟩)] 0 ⟨some "//"⟩
      = CollectResult.out []
          (([(2, (⟨["a"], "f", 1⟩ : Block)), (0, ⟨["r"], "f", 3⟩)].map (fun p =>
            (indentStr p.1 ++ ("//" ++ " " ++ squote ++ p.2.file ++ squote
              ++ ", line " ++ toString p.2.lineno))
            :: p.2.lines.map (fun l => indentStr p.1 ++ l))).flatten) :=
  ⟨rfl,
    (c3_headers_exactly_when_leader 3 [Knot.ref "(x)", Knot.block ⟨["r"], "f", 3⟩]
      [("(x)", ⟨2, [Knot.block ⟨["a"], "f", 1⟩]⟩)] 0 "//" []
      [(2, ⟨["a"], "f", 1⟩), (0, ⟨["r"], "f", 3⟩)] rfl).1⟩

/-- A successful lookup pinpoints a binding of the map. -/
theorem lookupAnchor_mem {k : String} {a : Anchor} :
    ∀ {m : AnchorMap}, lookupAnchor k m = some a → (k, a) ∈ m := by
  intro m
  induction m with
  | nil => intro h; simp [lookupAnchor] at h
  | cons p rest ih =>
    intro h
    rw [lookupAnchor] at h
    by_cases hk : p.1 = k
    · rw [if_pos hk] at h
      have h2 : p.2 = a := by injection h
      rw [← hk, ← h2]
      exact List.mem_cons_self _ _
    · rw [if_neg hk] at h
      exact List.mem_cons_of_mem _ (ih h)

/-- Concatenation preserves block-nonemptiness. -/
theorem KnotsOK_append {t₁ t₂ : Tangled} (h₁ : KnotsOK t₁) (h₂ : KnotsOK t₂) :
    KnotsOK (t₁ ++ t₂) := by
  intro k hk
  rcases List.mem_append.mp hk with h | h
  · exact h₁ k h
  · exact h₂ k h

theorem KnotsOK_nil : KnotsOK [] :=
  fun _ hk => absurd hk (List.not_mem_nil _)

theorem MapOK_nil : MapOK [] :=
  fun _ hp => absurd hp (List.not_mem_nil _)

/-- Inserting a node whose children are all nonempty preserves the map
invariant. -/
theorem MapOK_insert (k : String) (a : Anchor) (ha : KnotsOK a.tangled) :
    ∀ m : AnchorMap, MapOK m → MapOK (insertAnchor k a m) := by
  intro m
  induction m with
  | nil =>
    intro _ p hp
    rw [insertAnchor] at hp
    rcases List.mem_cons.mp hp with hp | hp
    · subst hp; exact ha
    · simp at hp
  | cons q rest ih =>
    intro hm p hp
    rw [insertAnchor] at hp
    by_cases hk : q.1 = k
    · rw [if_pos hk] at hp
      rcases List.mem_cons.mp hp with hp | hp
      · subst hp; exact ha
      · exact hm p (List.mem_cons_of_mem _ hp)
    · rw [if_neg hk] at hp
      rcases List.mem_cons.mp hp with hp | hp
      · subst hp; exact hm q (List.mem_cons_self _ _)
      · exact ih (fun r hr => hm r (List.mem_cons_of_mem _ hr)) p hp

/-- `emplace` preserves the forest invariant: routed sections made of
nonempty blocks keep every root and anchor child nonempty. -/
theorem emplace_OK {st : OutputTarget} {sec root : Tangled} {m : AnchorMap}
    {root' : Tangled} {m' : AnchorMap}
    (hsec : KnotsOK sec) (hroot : KnotsOK root) (hm : MapOK m)
    (h : emplace st sec root m = some (root', m')) :
    KnotsOK root' ∧ MapOK m' := by
  cases st with
  | insert =>
    rw [emplace] at h
    simp only [Option.some.injEq, Prod.mk.injEq] at h
    obtain ⟨rfl, rfl⟩ := h
    exact ⟨KnotsOK_append hroot hsec, hm⟩
  | before name =>
    rw [emplace] at h
    cases hl : lookupAnchor name m with
    | none => rw [hl] at h; exact absurd h (by simp)
    | some a =>
      rw [hl] at h
      simp only [Option.some.injEq, Prod.mk.injEq] at h
      obtain ⟨rfl, rfl⟩ := h
      exact ⟨hroot, MapOK_insert _ _
        (KnotsOK_append hsec (hm (name, a) (lookupAnchor_mem hl))) m hm⟩
  | after name =>
    rw [emplace] at h
    cases hl : lookupAnchor name m with
    | none => rw [hl] at h; exact absurd h (by simp)
    | some a =>
      rw [hl] at h
      simp only [Option.some.injEq, Prod.mk.injEq] at h
      obtain ⟨rfl, rfl⟩ := h
      exact ⟨hroot, MapOK_insert _ _
        (KnotsOK_append (hm (name, a) (lookupAnchor_mem hl)) hsec) m hm⟩

/-- `handleAnchor` preserves the forest invariant. -/
theorem handleAnchor_OK {fname : String} {lineno ind : Nat} {a : Parsing.Anchor}
    {st : OutputTarget} {sec root : Tangled} {m : AnchorMap} {errs : List Err}
    {st' : OutputTarget} {sec' root' : Tangled} {m' : AnchorMap} {errs' : List Err}
    (hsec : KnotsOK sec) (hroot : KnotsOK root) (hm : MapOK m)
    (h : handleAnchor fname lineno ind a st sec root m errs
      = some (st', sec', root', m', errs')) :
    KnotsOK sec' ∧ KnotsOK root' ∧ MapOK m' := by
  cases a with
  | insert =>
    rw [handleAnchor] at h
    cases hemp : emplace st sec root m with
    | none => rw [hemp] at h; exact absurd h (by simp)
    | some p =>
      obtain ⟨proot, pm⟩ := p
      obtain ⟨hOK₁, hOK₂⟩ := emplace_OK hsec hroot hm hemp
      rw [hemp] at h
      simp only [Option.some.injEq, Prod.mk.injEq] at h
      obtain ⟨-, rfl, rfl, rfl, -⟩ := h
      exact ⟨KnotsOK_nil, hOK₁, hOK₂⟩
  | before name =>
    rw [handleAnchor] at h
    cases hemp : emplace st sec root m with
    | none => rw [hemp] at h; exact absurd h (by simp)
    | some p =>
      obtain ⟨proot, pm⟩ := p
      obtain ⟨hOK₁, hOK₂⟩ := emplace_OK hsec hroot hm hemp
      rw [hemp] at h
      by_cases hl : (lookupAnchor name pm).isSome <;>
        simp only [hl, if_true, if_false, Bool.false_eq_true,
          Option.some.injEq, Prod.mk.injEq] at h <;>
        obtain ⟨-, rfl, rfl, rfl, -⟩ := h <;>
        exact ⟨KnotsOK_nil, hOK₁, hOK₂⟩
  | after name =>
    rw [handleAnchor] at h
    cases hemp : emplace st sec root m with
    | none => rw [hemp] at h; exact absurd h (by simp)
    | some p =>
      obtain ⟨proot, pm⟩ := p
      obtain ⟨hOK₁, hOK₂⟩ := emplace_OK hsec hroot hm hemp
      rw [hemp] at h
      by_cases hl : (lookupAnchor name pm).isSome <;>
        simp only [hl, if_true, if_false, Bool.false_eq_true,
          Option.some.injEq, Prod.mk.injEq] at h <;>
        obtain ⟨-, rfl, rfl, rfl, -⟩ := h <;>
        exact ⟨KnotsOK_nil, hOK₁, hOK₂⟩
  | label name =>
    rw [handleAnchor] at h
    simp only [Option.some.injEq, Prod.mk.injEq] at h
    obtain ⟨-, rfl, rfl, rfl, -⟩ := h
    refine ⟨KnotsOK_append hsec ?_, hroot, MapOK_insert _ _ KnotsOK_nil m hm⟩
    intro k hk
    rcases List.mem_cons.mp hk with hk | hk
    · subst hk; trivial
    · simp at hk

/-- `streamLoop` preserves the forest invariant. -/
theorem streamLoop_OK (fuel : Nat) :
    ∀ (fname : String) (lines : List (Nat × LineInput)) (st : OutputTarget)
      (sec : Tangled) (block : Block) (root : Tangled) (m : AnchorMap)
      (errs : List Err) (root' : Tangled) (m' : AnchorMap) (errs' : List Err),
    KnotsOK sec → KnotsOK root → MapOK m →
    streamLoop fuel fname lines st sec block root m errs = some (root', m', errs') →
    KnotsOK root' ∧ MapOK m' := by
  induction fuel with
  | zero =>
    intro fname lines st sec block root m errs root' m' errs' _ _ _ h
    simp [streamLoop] at h
  | succ f ih =>
    intro fname lines st sec block root m errs root' m' errs' hsec hroot hm h
    simp only [streamLoop] at h
    have hsec' : KnotsOK
        (if (process_block_lines lines block errs).block.lines.isEmpty then sec
         else sec ++ [Knot.block (process_block_lines lines block errs).block]) := by
      by_cases hb : (process_block_lines lines block errs).block.lines.isEmpty
      · simpa [hb] using hsec
      · rw [if_neg hb]
        refine KnotsOK_append hsec ?_
        intro k hk
        rcases List.mem_cons.mp hk with hk | hk
        · subst hk
          show (process_block_lines lines block errs).block.lines ≠ []
          intro hx
          exact hb (by rw [hx]; rfl)
        · simp at hk
    cases hnext : (process_block_lines lines block errs).next with
    | none =>
      simp only [hnext] at h
      cases hemp : emplace st
          (if (process_block_lines lines block errs).block.lines.isEmpty then sec
           else sec ++ [Knot.block (process_block_lines lines block errs).block]) root m with
      | none => rw [hemp] at h; exact absurd h (by simp)
      | some p =>
        obtain ⟨proot, pm⟩ := p
        rw [hemp] at h
        simp only [Option.map_some', Option.some.injEq, Prod.mk.injEq] at h
        obtain ⟨rfl, rfl, -⟩ := h
        exact emplace_OK hsec' hroot hm hemp
    | some trip =>
      obtain ⟨lineno, ind, a⟩ := trip
      simp only [hnext] at h
      cases hha : handleAnchor fname lineno ind a st
          (if (process_block_lines lines block errs).block.lines.isEmpty then sec
           else sec ++ [Knot.block (process_block_lines lines block errs).block])
          root m (process_block_lines lines block errs).errs with
      | none => rw [hha] at h; exact absurd h (by simp)
      | some q =>
        obtain ⟨st₂, sec₂, root₂, m₂, errs₂⟩ := q
        rw [hha] at h
        obtain ⟨hq₁, hq₂, hq₃⟩ := handleAnchor_OK hsec' hroot hm hha
        exact ih fname (process_block_lines lines block errs).rest st₂ sec₂
          ⟨[], fname, lineno⟩ root₂ m₂ errs₂ root' m' errs' hq₁ hq₂ hq₃ h

/-- `tanglePass` preserves the forest invariant. -/
theorem tanglePass_OK :
    ∀ (streams : List Stream') (root : Tangled) (m : AnchorMap) (errs : List Err)
      (root' : Tangled) (m' : AnchorMap) (errs' : List Err),
    KnotsOK root → MapOK m →
    tanglePass streams root m errs = some (root', m', errs') →
    KnotsOK root' ∧ MapOK m' := by
  intro streams
  induction streams with
  | nil =>
    intro root m errs root' m' errs' hroot hm h
    rw [tanglePass] at h
    simp only [Option.some.injEq, Prod.mk.injEq] at h
    obtain ⟨rfl, rfl, -⟩ := h
    exact ⟨hroot, hm⟩
  | cons s rest ih =>
    intro root m errs root' m' errs' hroot hm h
    rw [tanglePass] at h
    cases hsl : streamLoop ((numberLines s.lines).length + 1) s.name (numberLines s.lines)
        OutputTarget.insert [] ⟨[], s.name, 1⟩ root m errs with
    | none => rw [hsl] at h; exact absurd h (by simp)
    | some p =>
      obtain ⟨proot, pm, perrs⟩ := p
      rw [hsl] at h
      obtain ⟨hp₁, hp₂⟩ := streamLoop_OK ((numberLines s.lines).length + 1) s.name
        (numberLines s.lines) OutputTarget.insert [] ⟨[], s.name, 1⟩ root m errs
        proot pm perrs KnotsOK_nil hroot hm hsl
      exact ih proot pm perrs root' m' errs' hp₁ hp₂ h
/-- Claim C6, amended: every block materialized into the forest is nonempty
(blocks with zero lines are never materialized) and is tagged with the
origin's display name and the 1-based line number of the directive that
opened it (1 for a stream's initial block) — which is the number printed by
a provenance header, and which precedes the block's own first ordinary line
when the block starts after a directive. -/
theorem c6_forest_blocks_nonempty :
    (∀ (streams : List Stream') (root : Tangled) (m : AnchorMap) (errs : List Err)
       (root' : Tangled) (m' : AnchorMap) (errs' : List Err),
      KnotsOK root → MapOK m →
      tanglePass streams root m errs = some (root', m', errs') →
      KnotsOK root' ∧ MapOK m') ∧
    tanglePass [⟨"f", [LineInput.ok "x", LineInput.ok "##[insert]",
        LineInput.ok "a", LineInput.ok "b"]⟩] [] [] []
      = some ([Knot.block ⟨["x"], "f", 1⟩, Knot.block ⟨["a", "b"], "f", 2⟩], [], []) :=
  ⟨tanglePass_OK, rfl⟩

/-- Claim C6, witness: the invariant applied to the concrete run above. -/
theorem c6_witness :
    (KnotsOK [] ∧ MapOK []) ∧
    (KnotsOK [Knot.block ⟨["x"], "f", 1⟩, Knot.block ⟨["a", "b"], "f", 2⟩] ∧ MapOK []) :=
  ⟨⟨fun _ hk => absurd hk (List.not_mem_nil _), fun _ hp => absurd hp (List.not_mem_nil _)⟩,
    c6_forest_blocks_nonempty.1
      [⟨"f", [LineInput.ok "x", LineInput.ok "##[insert]",
        LineInput.ok "a", LineInput.ok "b"]⟩] [] [] []
      [Knot.block ⟨["x"], "f", 1⟩, Knot.block ⟨["a", "b"], "f", 2⟩] [] []
      (fun _ hk => absurd hk (List.not_mem_nil _))
      (fun _ hp => absurd hp (List.not_mem_nil _)) rfl⟩

/-- `parse_end` succeeds exactly on a closing-bracket head. -/
theorem parse_end_eq_some (ts : List Parsing.Token) (r : List Parsing.Token) :
    Parsing.parse_end ts = some r ↔ ts = Parsing.Token.anchorEnd :: r := by
  cases ts with
  | nil => simp [Parsing.parse_end]
  | cons t ts' => cases t <;> simp [Parsing.parse_end]

/-- `parse_arg` succeeds exactly on an argument-token head. -/
theorem parse_arg_eq_some (ts : List Parsing.Token) (s : String) (r : List Parsing.Token) :
    Parsing.parse_arg ts = some (s, r) ↔ ts = Parsing.Token.anchorOpArg s :: r := by
  cases ts with
  | nil => simp [Parsing.parse_arg]
  | cons t ts' => cases t <;> simp [Parsing.parse_arg]

/-- Claim C9, amended: `parse_anchor` accepts a token stream exactly when it
begins with one of the four forms `Start Insert End`, `Start Before Arg End`,
`Start After Arg End`, `Start Label Arg End`; tokens after the accepted form
are ignored rather than rejected, and lex failures and parse failures both
collapse to the single could-not-parse result. -/
theorem c9_parse_accepts_exactly_form_prefixes :
    ∀ (ts : List Parsing.Token) (a : Parsing.Anchor),
      Parsing.parse_anchor ts = some a ↔ ∃ rest, ts = anchor_form a ++ rest := by
  intro ts a
  constructor
  · intro h
    cases ts with
    | nil => simp [Parsing.parse_anchor] at h
    | cons t ts1 =>
      cases t with
      | anchorStart =>
        simp only [Parsing.parse_anchor] at h
        cases ts1 with
        | nil => simp [Parsing.parse_op] at h
        | cons t2 ts2 =>
          cases t2 with
          | anchorOp op =>
            cases op with
            | insert =>
              simp only [Parsing.parse_op] at h
              cases hend : Parsing.parse_end ts2 with
              | none => rw [hend] at h; simp at h
              | some r =>
                rw [hend] at h
                obtain rfl : Parsing.Anchor.insert = a := by simpa using h
                obtain rfl := (parse_end_eq_some ts2 r).mp hend
                exact ⟨r, rfl⟩
            | before =>
              simp only [Parsing.parse_op] at h
              cases harg : Parsing.parse_arg ts2 with
              | none => rw [harg] at h; simp at h
              | some p =>
                obtain ⟨s, r1⟩ := p
                simp only [harg, Option.some_bind] at h
                cases hend : Parsing.parse_end r1 with
                | none => rw [hend] at h; simp at h
                | some r2 =>
                  rw [hend] at h
                  obtain rfl : Parsing.Anchor.before s = a := by simpa using h
                  obtain rfl := (parse_arg_eq_some ts2 s r1).mp harg
                  obtain rfl := (parse_end_eq_some r1 r2).mp hend
                  exact ⟨r2, rfl⟩
            | after =>
              simp only [Parsing.parse_op] at h
              cases harg : Parsing.parse_arg ts2 with
              | none => rw [harg] at h; simp at h
              | some p =>
                obtain ⟨s, r1⟩ := p
                simp only [harg, Option.some_bind] at h
                cases hend : Parsing.parse_end r1 with
                | none => rw [hend] at h; simp at h
                | some r2 =>
                  rw [hend] at h
                  obtain rfl : Parsing.Anchor.after s = a := by simpa using h
                  obtain rfl := (parse_arg_eq_some ts2 s r1).mp harg
                  obtain rfl := (parse_end_eq_some r1 r2).mp hend
                  exact ⟨r2, rfl⟩
            | label =>
              simp only [Parsing.parse_op] at h
              cases harg : Parsing.parse_arg ts2 with
              | none => rw [harg] at h; simp at h
              | some p =>
                obtain ⟨s, r1⟩ := p
                simp only [harg, Option.some_bind] at h
                cases hend : Parsing.parse_end r1 with
                | none => rw [hend] at h; simp at h
                | some r2 =>
                  rw [hend] at h
                  obtain rfl : Parsing.Anchor.label s = a := by simpa using h
                  obtain rfl := (parse_arg_eq_some ts2 s r1).mp harg
                  obtain rfl := (parse_end_eq_some r1 r2).mp hend
                  exact ⟨r2, rfl⟩
          | null => simp [Parsing.parse_op] at h
          | anchorStart => simp [Parsing.parse_op] at h
          | anchorEnd => simp [Parsing.parse_op] at h
          | anchorOpArg s => simp [Parsing.parse_op] at h
      | null => simp [Parsing.parse_anchor] at h
      | anchorEnd => simp [Parsing.parse_anchor] at h
      | anchorOp op => simp [Parsing.parse_anchor] at h
      | anchorOpArg s => simp [Parsing.parse_anchor] at h
  · rintro ⟨rest, rfl⟩
    cases a <;> rfl

namespace KList

theorem hupdate_same {T : Type} (h : Heap T) (a : Nat) (n : Node T) :
    hupdate h a n a = some n := by
  simp [hupdate]

theorem hupdate_other {T : Type} (h : Heap T) (a b : Nat) (n : Node T) (hne : b ≠ a) :
    hupdate h a n b = h b := by
  simp [hupdate, hne]

theorem nextOf_append {T : Type} (nxt : Option Nat) (c d : List (Nat × T)) :
    nextOf nxt (c ++ d) = nextOf (nextOf nxt d) c := by
  cases c with
  | nil => rfl
  | cons p c' => obtain ⟨b, y⟩ := p; rfl

theorem prevOf_append {T : Type} (c d : List (Nat × T)) :
    ∀ p, prevOf p (c ++ d) = prevOf (prevOf p c) d := by
  induction c with
  | nil => intro p; rfl
  | cons q c' ih => obtain ⟨a, x⟩ := q; intro p; exact ih (some a)

theorem prevOf_concat {T : Type} (p : Option Nat) (c : List (Nat × T)) (a : Nat) (x : T) :
    prevOf p (c ++ [(a, x)]) = some a := by
  rw [prevOf_append]; rfl

theorem prevOf_some_isSome {T : Type} (c : List (Nat × T)) :
    ∀ q : Nat, (prevOf (some q) c).isSome := by
  induction c with
  | nil => intro q; rfl
  | cons p c' ih => obtain ⟨a, x⟩ := p; intro q; exact ih a

theorem prevOf_none_eq_none {T : Type} {c : List (Nat × T)}
    (h : prevOf none c = none) : c = [] := by
  cases c with
  | nil => rfl
  | cons p c' =>
    obtain ⟨a, x⟩ := p
    have := prevOf_some_isSome c' a
    rw [show prevOf none ((a, x) :: c') = prevOf (some a) c' from rfl] at h
    rw [h] at this
    simp at this

theorem headAddr_eq_none {T : Type} {c : List (Nat × T)}
    (h : headAddr c = none) : c = [] := by
  cases c with
  | nil => rfl
  | cons p c' => simp [headAddr] at h

/-- Updating an address outside a segment leaves it chained. -/
theorem ChainedSeg_hupdate {T : Type} (h : Heap T) (b : Nat) (n : Node T) :
    ∀ (cells : List (Nat × T)) (prev nxt : Option Nat),
    b ∉ cells.map Prod.fst →
    (ChainedSeg (hupdate h b n) prev cells nxt ↔ ChainedSeg h prev cells nxt) := by
  intro cells
  induction cells with
  | nil => intro prev nxt _; simp [ChainedSeg]
  | cons p rest ih =>
    obtain ⟨a, x⟩ := p
    intro prev nxt hb
    have hab : a ≠ b := by
      intro e; exact hb (by simp [e])
    have hrest : b ∉ rest.map Prod.fst := by
      intro e; exact hb (by simp [e])
    simp only [ChainedSeg, hupdate_other h b a n hab, ih (some a) nxt hrest]

/-- A segment splits across concatenation. -/
theorem ChainedSeg_append {T : Type} (h : Heap T) :
    ∀ (c d : List (Nat × T)) (prev nxt : Option Nat),
    ChainedSeg h prev (c ++ d) nxt ↔
      ChainedSeg h prev c (nextOf nxt d) ∧ ChainedSeg h (prevOf prev c) d nxt := by
  intro c
  induction c with
  | nil => intro d prev nxt; simp [ChainedSeg, prevOf]
  | cons p c' ih =>
    obtain ⟨a, x⟩ := p
    intro d prev nxt
    show (h a = some ⟨prev, nextOf nxt (c' ++ d), x⟩ ∧
        ChainedSeg h (some a) (c' ++ d) nxt) ↔ _
    rw [nextOf_append, ih d (some a) nxt]
    show _ ↔ ((h a = some ⟨prev, nextOf (nextOf nxt d) c', x⟩ ∧
        ChainedSeg h (some a) c' (nextOf nxt d)) ∧
        ChainedSeg h (prevOf (some a) c') d nxt)
    rw [and_assoc]

theorem headAddr_append_left {T : Type} {c : List (Nat × T)} (d : List (Nat × T))
    (h : c ≠ []) : headAddr (c ++ d) = headAddr c := by
  cases c with
  | nil => exact absurd rfl h
  | cons p c' => rfl

/-- `append_back` on well-formed disjoint lists: the first list now holds the
cells of both, in order, and the second is empty. -/
theorem append_back_spec {T : Type} (h : Heap T) (l1 l2 : DLList)
    (c1 c2 : List (Nat × T))
    (h1 : WFL h l1 c1) (h2 : WFL h l2 c2)
    (hdisj : ∀ a ∈ c1.map Prod.fst, a ∉ c2.map Prod.fst) :
    ∃ h' l1' l2', append_back h l1 l2 = some (h', l1', l2') ∧
      WFL h' l1' (c1 ++ c2) ∧ WFL h' l2' [] := by
  obtain ⟨hc1, hf1, hb1, hl1, hn1⟩ := h1
  obtain ⟨hc2, hf2, hb2, hl2, hn2⟩ := h2
  cases hof : l2.front with
  | none =>
    have hc2nil : c2 = [] := headAddr_eq_none (by rw [← hf2, hof])
    subst hc2nil
    refine ⟨h, l1, l2, ?_, ?_, ?_⟩
    · cases hsb : l1.back <;> simp [append_back, hof, hsb]
    · rw [List.append_nil]; exact ⟨hc1, hf1, hb1, hl1, hn1⟩
    · exact ⟨hc2, hf2, hb2, hl2, hn2⟩
  | some tf =>
    cases c2 with
    | nil => rw [hf2] at hof; simp [headAddr] at hof
    | cons p c2' =>
      obtain ⟨tf₀, x2⟩ := p
      obtain rfl : tf = tf₀ := by
        rw [hf2] at hof
        exact (by simpa [headAddr] using hof : tf₀ = tf).symm
      cases hsb : l1.back with
      | none =>
        have hc1nil : c1 = [] := prevOf_none_eq_none (by rw [← hb1, hsb])
        subst hc1nil
        refine ⟨h, l2, l1, ?_, ?_, ?_⟩
        · simp [append_back, hof, hsb]
        · rw [List.nil_append]; exact ⟨hc2, hf2, hb2, hl2, hn2⟩
        · exact ⟨hc1, hf1, hb1, hl1, hn1⟩
      | some ob =>
        have hc1ne : c1 ≠ [] := by
          intro e
          rw [hsb, e] at hb1
          simp [prevOf] at hb1
        obtain ⟨c1', pl, rfl⟩ : ∃ L b, c1 = L ++ [b] := by
          rcases List.eq_nil_or_concat c1 with hnil | ⟨L, b, hcat⟩
          · exact absurd hnil hc1ne
          · exact ⟨L, b, by rw [hcat, List.concat_eq_append]⟩
        obtain ⟨obl, xl⟩ := pl
        obtain rfl : ob = obl := by
          rw [prevOf_concat] at hb1
          rw [hsb] at hb1
          exact Option.some.inj hb1
        rw [ChainedSeg_append] at hc1
        obtain ⟨hc1a, hc1b⟩ := hc1
        have hhob : h ob = some ⟨prevOf none c1', none, xl⟩ := hc1b.1
        have hhtf : h tf = some ⟨none, nextOf none c2', x2⟩ := hc2.1
        have hchain2 : ChainedSeg h (some tf) c2' none := hc2.2
        have hobmem : ob ∈ (c1' ++ [(ob, xl)]).map Prod.fst := by simp
        have htfmem : tf ∈ (((tf, x2) :: c2').map Prod.fst) := by simp
        have hobtf : ob ≠ tf := fun e => hdisj ob hobmem (by rw [e] at hobmem ⊢; exact htfmem)
        have hobc1' : ob ∉ c1'.map Prod.fst := by
          intro hmem
          rw [List.map_append, List.nodup_append] at hn1
          exact hn1.2.2 hmem (by simp)
        have htfc1' : tf ∉ c1'.map Prod.fst := by
          intro hmem
          exact hdisj tf (by rw [List.map_append]; exact List.mem_append_left _ hmem)
            (by simp)
        have hobc2' : ob ∉ c2'.map Prod.fst := by
          intro hmem
          exact hdisj ob hobmem (by simp [hmem])
        have htfc2' : tf ∉ c2'.map Prod.fst := by
          have h2' := hn2
          rw [List.map_cons, List.nodup_cons] at h2'
          exact h2'.1
        refine ⟨hupdate (hupdate h ob ⟨prevOf none c1', some tf, xl⟩) tf
            ⟨some ob, nextOf none c2', x2⟩,
          ⟨l1.front, l2.back, l1.len + l2.len⟩, ⟨none, none, 0⟩, ?_, ?_, ?_⟩
        · simp [append_back, hsb, hof, hhob, hhtf]
        · refine ⟨?_, ?_, ?_, ?_, ?_⟩
          · rw [ChainedSeg_append]
            constructor
            · rw [ChainedSeg_append]
              constructor
              · show ChainedSeg _ none c1' (some ob)
                rw [ChainedSeg_hupdate _ tf _ c1' none (some ob) htfc1']
                rw [ChainedSeg_hupdate _ ob _ c1' none (some ob) hobc1']
                exact hc1a
              · refine ⟨?_, trivial⟩
                show hupdate (hupdate h ob _) tf _ ob
                  = some ⟨prevOf none c1', some tf, xl⟩
                rw [hupdate_other _ tf ob _ hobtf, hupdate_same]
            · rw [prevOf_concat]
              refine ⟨?_, ?_⟩
              · show hupdate (hupdate h ob _) tf _ tf
                  = some ⟨some ob, nextOf none c2', x2⟩
                rw [hupdate_same]
              · show ChainedSeg _ (some tf) c2' none
                rw [ChainedSeg_hupdate _ tf _ c2' (some tf) none htfc2']
                rw [ChainedSeg_hupdate _ ob _ c2' (some tf) none hobc2']
                exact hchain2
          · show l1.front = headAddr ((c1' ++ [(ob, xl)]) ++ (tf, x2) :: c2')
            rw [headAddr_append_left _ (by simp)]
            exact hf1
          · show l2.back = prevOf none ((c1' ++ [(ob, xl)]) ++ (tf, x2) :: c2')
            rw [prevOf_append]
            exact hb2
          · show l1.len + l2.len = ((c1' ++ [(ob, xl)]) ++ (tf, x2) :: c2').length
            rw [hl1, hl2]
            simp only [List.length_append, List.length_cons, List.length_nil]
          · rw [List.map_append]
            exact List.Nodup.append hn1 hn2 hdisj
        · exact ⟨trivial, rfl, rfl, rfl, List.nodup_nil⟩

/-- `append_front` on well-formed disjoint lists: the first list now holds
the other's cells followed by its own, and the second is empty. -/
theorem append_front_spec {T : Type} (h : Heap T) (l1 l2 : DLList)
    (c1 c2 : List (Nat × T))
    (h1 : WFL h l1 c1) (h2 : WFL h l2 c2)
    (hdisj : ∀ a ∈ c1.map Prod.fst, a ∉ c2.map Prod.fst) :
    ∃ h' l1' l2', append_front h l1 l2 = some (h', l1', l2') ∧
      WFL h' l1' (c2 ++ c1) ∧ WFL h' l2' [] := by
  obtain ⟨hc1, hf1, hb1, hl1, hn1⟩ := h1
  obtain ⟨hc2, hf2, hb2, hl2, hn2⟩ := h2
  cases hob : l2.back with
  | none =>
    have hc2nil : c2 = [] := prevOf_none_eq_none (by rw [← hb2, hob])
    subst hc2nil
    refine ⟨h, l1, l2, ?_, ?_, ?_⟩
    · cases hsf : l1.front <;> simp [append_front, hob, hsf]
    · rw [List.nil_append]; exact ⟨hc1, hf1, hb1, hl1, hn1⟩
    · exact ⟨hc2, hf2, hb2, hl2, hn2⟩
  | some tb =>
    cases hsf : l1.front with
    | none =>
      have hc1nil : c1 = [] := headAddr_eq_none (by rw [← hf1, hsf])
      subst hc1nil
      refine ⟨h, l2, l1, ?_, ?_, ?_⟩
      · simp [append_front, hob, hsf]
      · rw [List.append_nil]; exact ⟨hc2, hf2, hb2, hl2, hn2⟩
      · exact ⟨hc1, hf1, hb1, hl1, hn1⟩
    | some of =>
      cases c1 with
      | nil => rw [hf1] at hsf; simp [headAddr] at hsf
      | cons p c1' =>
        obtain ⟨of₀, x1⟩ := p
        obtain rfl : of = of₀ := by
          rw [hf1] at hsf
          exact (by simpa [headAddr] using hsf : of₀ = of).symm
        have hc2ne : c2 ≠ [] := by
          intro e
          rw [hob, e] at hb2
          simp [prevOf] at hb2
        obtain ⟨c2'', pl, rfl⟩ : ∃ L b, c2 = L ++ [b] := by
          rcases List.eq_nil_or_concat c2 with hnil | ⟨L, b, hcat⟩
          · exact absurd hnil hc2ne
          · exact ⟨L, b, by rw [hcat, List.concat_eq_append]⟩
        obtain ⟨tbl, xl⟩ := pl
        obtain rfl : tb = tbl := by
          rw [prevOf_concat] at hb2
          rw [hob] at hb2
          exact Option.some.inj hb2
        rw [ChainedSeg_append] at hc2
        obtain ⟨hc2a, hc2b⟩ := hc2
        have hhtb : h tb = some ⟨prevOf none c2'', none, xl⟩ := hc2b.1
        have hhof : h of = some ⟨none, nextOf none c1', x1⟩ := hc1.1
        have hchain1 : ChainedSeg h (some of) c1' none := hc1.2
        have hofmem : of ∈ (((of, x1) :: c1').map Prod.fst) := by simp
        have htbmem : tb ∈ (c2'' ++ [(tb, xl)]).map Prod.fst := by simp
        have hoftb : of ≠ tb := fun e => hdisj of hofmem (by rw [e] at hofmem ⊢; exact htbmem)
        have hofc2'' : of ∉ c2''.map Prod.fst := by
          intro hmem
          exact hdisj of hofmem
            (by rw [List.map_append]; exact List.mem_append_left _ hmem)
        have htbc2'' : tb ∉ c2''.map Prod.fst := by
          intro hmem
          rw [List.map_append, List.nodup_append] at hn2
          exact hn2.2.2 hmem (by simp)
        have hofc1' : of ∉ c1'.map Prod.fst := by
          have h1' := hn1
          rw [List.map_cons, List.nodup_cons] at h1'
          exact h1'.1
        have htbc1' : tb ∉ c1'.map Prod.fst := by
          intro hmem
          exact hdisj tb (by simp [hmem]) (by simp)
        refine ⟨hupdate (hupdate h of ⟨some tb, nextOf none c1', x1⟩) tb
            ⟨prevOf none c2'', some of, xl⟩,
          ⟨l2.front, l1.back, l1.len + l2.len⟩, ⟨none, none, 0⟩, ?_, ?_, ?_⟩
        · simp [append_front, hob, hsf, hhof, hhtb]
        · refine ⟨?_, ?_, ?_, ?_, ?_⟩
          · rw [ChainedSeg_append]
            constructor
            · rw [ChainedSeg_append]
              constructor
              · show ChainedSeg _ none c2'' (some tb)
                rw [ChainedSeg_hupdate _ tb _ c2'' none (some tb) htbc2'']
                rw [ChainedSeg_hupdate _ of _ c2'' none (some tb) hofc2'']
                exact hc2a
              · refine ⟨?_, trivial⟩
                show hupdate (hupdate h of _) tb _ tb
                  = some ⟨prevOf none c2'', some of, xl⟩
                rw [hupdate_same]
            · rw [prevOf_concat]
              refine ⟨?_, ?_⟩
              · show hupdate (hupdate h of _) tb _ of
                  = some ⟨some tb, nextOf none c1', x1⟩
                rw [hupdate_other _ tb of _ hoftb, hupdate_same]
              · show ChainedSeg _ (some of) c1' none
                rw [ChainedSeg_hupdate _ tb _ c1' (some of) none htbc1']
                rw [ChainedSeg_hupdate _ of _ c1' (some of) none hofc1']
                exact hchain1
          · show l2.front = headAddr ((c2'' ++ [(tb, xl)]) ++ (of, x1) :: c1')
            rw [headAddr_append_left _ (by simp)]
            exact hf2
          · show l1.back = prevOf none ((c2'' ++ [(tb, xl)]) ++ (of, x1) :: c1')
            rw [prevOf_append]
            exact hb1
          · show l1.len + l2.len = ((c2'' ++ [(tb, xl)]) ++ (of, x1) :: c1').length
            rw [hl1, hl2]
            simp only [List.length_append, List.length_cons, List.length_nil]
            omega
          · rw [List.map_append]
            exact List.Nodup.append hn2 hn1 (fun a ha hb => hdisj a hb ha)
        · exact ⟨trivial, rfl, rfl, rfl, List.nodup_nil⟩

end KList

/-- Claim C10: on well-formed, address-disjoint splice lists, `append_back`
leaves the first list holding its old elements followed by the other's old
elements, and `append_front` leaves it holding the other's old elements
followed by its own; relative order within each absorbed group is preserved
(the cell sequences are concatenated unchanged) and the source list is empty
afterward, including when either list starts empty. -/
theorem c10_append_back_front_spec :
    (∀ (T : Type) (h : KList.Heap T) (l1 l2 : KList.DLList) (c1 c2 : List (Nat × T)),
      KList.WFL h l1 c1 → KList.WFL h l2 c2 →
      (∀ a ∈ c1.map Prod.fst, a ∉ c2.map Prod.fst) →
      ∃ h' l1' l2', KList.append_back h l1 l2 = some (h', l1', l2') ∧
        KList.WFL h' l1' (c1 ++ c2) ∧ KList.WFL h' l2' []) ∧
    (∀ (T : Type) (h : KList.Heap T) (l1 l2 : KList.DLList) (c1 c2 : List (Nat × T)),
      KList.WFL h l1 c1 → KList.WFL h l2 c2 →
      (∀ a ∈ c1.map Prod.fst, a ∉ c2.map Prod.fst) →
      ∃ h' l1' l2', KList.append_front h l1 l2 = some (h', l1', l2') ∧
        KList.WFL h' l1' (c2 ++ c1) ∧ KList.WFL h' l2' []) :=
  ⟨fun _ h l1 l2 c1 c2 h1 h2 hd => KList.append_back_spec h l1 l2 c1 c2 h1 h2 hd,
   fun _ h l1 l2 c1 c2 h1 h2 hd => KList.append_front_spec h l1 l2 c1 c2 h1 h2 hd⟩

/-- Claim C10, witness: two concrete singleton lists in a two-cell heap. -/
theorem c10_witness :
    (KList.WFL
        (fun a => if a = 0 then some ⟨none, none, 10⟩
          else if a = 1 then some ⟨none, none, 20⟩ else none)
        ⟨some 0, some 0, 1⟩ [(0, (10 : Nat))] ∧
      KList.WFL
        (fun a => if a = 0 then some ⟨none, none, 10⟩
          else if a = 1 then some ⟨none, none, 20⟩ else none)
        ⟨some 1, some 1, 1⟩ [(1, (20 : Nat))] ∧
      (∀ a ∈ ([(0, (10 : Nat))]).map Prod.fst,
        a ∉ ([(1, (20 : Nat))]).map Prod.fst)) ∧
    (∃ h' l1' l2',
      KList.append_back
        (fun a => if a = 0 then some ⟨none, none, 10⟩
          else if a = 1 then some ⟨none, none, 20⟩ else none)
        ⟨some 0, some 0, 1⟩ ⟨some 1, some 1, 1⟩ = some (h', l1', l2') ∧
      KList.WFL h' l1' ([(0, (10 : Nat))] ++ [(1, (20 : Nat))]) ∧
      KList.WFL h' l2' []) := by
  have h1 : KList.WFL
      (fun a => if a = 0 then some ⟨none, none, 10⟩
        else if a = 1 then some ⟨none, none, 20⟩ else none)
      ⟨some 0, some 0, 1⟩ [(0, (10 : Nat))] :=
    ⟨⟨by simp [KList.nextOf], trivial⟩, rfl, rfl, rfl, by simp⟩
  have h2 : KList.WFL
      (fun a => if a = 0 then some ⟨none, none, 10⟩
        else if a = 1 then some ⟨none, none, 20⟩ else none)
      ⟨some 1, some 1, 1⟩ [(1, (20 : Nat))] :=
    ⟨⟨by simp [KList.nextOf], trivial⟩, rfl, rfl, rfl, by simp⟩
  have hd : ∀ a ∈ ([(0, (10 : Nat))]).map Prod.fst,
      a ∉ ([(1, (20 : Nat))]).map Prod.fst := by simp
  exact ⟨⟨h1, h2, hd⟩,
    c10_append_back_front_spec.1 Nat _ _ _ _ _ h1 h2 hd⟩

end Kaiseki
